import Mathlib

/-!
Verification of the Cache-Proxy-Server repository (Go).

Two request handlers exist in the sources:

* the Redis-backed handler `handleRequest` (server `main.go`): derives
  `targetURL = originServer + r.URL.Path`, consults Redis, on a miss fetches
  the origin with `http.Get`, copies headers, writes the status, reads the
  body (ignoring the read error), stores the body in Redis with a literal
  `300*time.Second` TTL, and writes the body;

* the README's in-memory variant: an LRU+TTL `Cache` built on
  `hashicorp/golang-lru` (`NewCache`, `Cache.Set`, `Cache.Get`) and a
  `ProxyServer.ServeHTTP` handler keyed on `r.URL.String()`.

Both are embedded below.  Byte sequences (`[]byte`) are modelled as `String`
(an opaque sequence whose only used operation is equality), `time.Time` and
`time.Duration` as `Nat`, and external effects (the Redis lookup outcome, the
origin fetch outcome, the body read outcome) as explicit inputs.
-/

namespace CacheProxy

/-- `CacheEntry` of the README in-memory cache: the cached response bytes and
the absolute expiry instant (`Expires = time.Now().Add(c.ttl)` at `Set`). -/
structure CacheEntry where
  Response : String
  Expires  : Nat
deriving Repr, DecidableEq

/-- The README `Cache`: a `golang-lru` LRU of bounded size plus a store-wide
TTL.  The LRU is modelled as an association list ordered most-recent-first;
`size` is the capacity given to `lru.New`. -/
structure Cache where
  size    : Nat
  ttl     : Nat
  entries : List (String × CacheEntry)
deriving Repr, DecidableEq

/-- `lru.Remove` / internal removal: drop the pair stored under `k`. -/
def lruRemove (l : List (String × CacheEntry)) (k : String) :
    List (String × CacheEntry) :=
  l.filter (fun p => decide (p.1 ≠ k))

/-- `golang-lru`'s `Get`: look the key up and, when present, move it to
most-recent position; returns the value found and the updated recency list. -/
def lruGet (l : List (String × CacheEntry)) (k : String) :
    Option CacheEntry × List (String × CacheEntry) :=
  match l.find? (fun p => decide (p.1 = k)) with
  | none => (none, l)
  | some p => (some p.2, p :: lruRemove l k)

/-- `golang-lru`'s `Add`: insert (or replace) at most-recent position; when
the resulting length exceeds the capacity, the least-recently-used pair (the
last one) is evicted.  Returns the new list and the evicted pairs. -/
def lruAdd (cap : Nat) (l : List (String × CacheEntry)) (k : String)
    (e : CacheEntry) :
    List (String × CacheEntry) × List (String × CacheEntry) :=
  let l' := (k, e) :: lruRemove l k
  if cap < l'.length then (l'.dropLast, l'.getLast?.toList) else (l', [])

/-- `NewCache(size, ttl)`: `lru.New` fails on a non-positive size, so the
constructor returns `none` for `size = 0` and the empty cache otherwise. -/
def NewCache (size ttl : Nat) : Option Cache :=
  if size = 0 then none else some ⟨size, ttl, []⟩

/-- `Cache.Set(key, response)`: add `CacheEntry{response, now + ttl}` to the
LRU (evicting the least-recently-used entry if over capacity).  `time.Now()`
is the explicit `now` argument. -/
def Cache.Set (c : Cache) (key response : String) (now : Nat) : Cache :=
  { c with entries := (lruAdd c.size c.entries key ⟨response, now + c.ttl⟩).1 }

/-- `Cache.Get(key)`: `lru.Get` (which promotes the key to most-recent), then
if `time.Now().After(entry.Expires)` — strictly after — the entry is removed
and the lookup misses; otherwise the stored response is returned.  Returns
the Go pair `([]byte, bool)` as an `Option` together with the updated cache. -/
def Cache.Get (c : Cache) (key : String) (now : Nat) : Option String × Cache :=
  match lruGet c.entries key with
  | (none, l) => (none, { c with entries := l })
  | (some e, l) =>
    if e.Expires < now then
      (none, { c with entries := lruRemove l key })
    else
      (some e.Response, { c with entries := l })

/-- Number of live entries. -/
def Cache.count (c : Cache) : Nat := c.entries.length

/-- The keys currently held, most-recent first. -/
def Cache.keys (c : Cache) : List String := c.entries.map Prod.fst

/-- Structural invariant of the store (spec §3): at most `size` live entries
and no duplicate keys (`golang-lru` keeps a key→node map, so keys are
unique). -/
def Cache.WF (c : Cache) : Prop :=
  c.entries.length ≤ c.size ∧ (c.entries.map Prod.fst).Nodup

/-- Fold a sequence of `Set` operations over the cache; each element gives
the key, the response and the `time.Now()` of that call. -/
def setAll (c : Cache) (ops : List (String × String × Nat)) : Cache :=
  ops.foldl (fun c op => c.Set op.1 op.2.1 op.2.2) c

/-- Fold a sequence of `Set` operations all issued at the same instant `t`;
each element gives the key and the response. -/
def setSeq (c : Cache) (ps : List (String × String)) (t : Nat) : Cache :=
  ps.foldl (fun c p => c.Set p.1 p.2 t) c

/-! ## The request handlers -/

/-- The part of an inbound `*http.Request` the handlers look at: `r.URL.Path`
and `r.URL.RawQuery`. -/
structure Request where
  path  : String
  query : String
deriving Repr, DecidableEq

/-- `r.URL.String()` for a server-side request URL: the path, followed by
`?query` when the query string is non-empty. -/
def Request.urlString (r : Request) : String :=
  r.path ++ (if r.query = "" then "" else "?" ++ r.query)

/-- A successful origin response (`*http.Response`): status code, headers
(name/value pairs, one pair per value) and the full body bytes. -/
structure OriginResp where
  status  : Nat
  headers : List (String × String)
  body    : String
deriving Repr, DecidableEq

/-- What one handler invocation writes to the `http.ResponseWriter`: the
status (200 when `Write` is reached without an explicit `WriteHeader`), the
explicitly added headers, and the body bytes. -/
structure Response where
  status  : Nat
  headers : List (String × String)
  body    : String
deriving Repr, DecidableEq

/-- Outcome of the Redis `Get(...).Result()` call when it does not return a
value: the missing-key sentinel `redis.Nil`, or any other backend error. -/
inductive RedisErr where
  | nilKey
  | backend (msg : String)
deriving Repr, DecidableEq

/-- A Redis `Set(ctx, key, value, ttl)` command issued by the handler
(`ttl` in seconds). -/
structure RedisCmd where
  key   : String
  value : String
  ttl   : Nat
deriving Repr, DecidableEq

/-- `targetURL := originServer + r.URL.Path` — the Redis handler's cache key
and forwarding URL.  The query string is not appended. -/
def targetURL (originServer : String) (r : Request) : String :=
  originServer ++ r.path

/-- The miss branch of the Redis-backed `handleRequest`: forward to the
origin (`http.Get`); on transport failure reply 502 with `http.Error`'s
body; on success copy the headers, write the origin status, read the body —
`body, _ := io.ReadAll(resp.Body)` discards the read error and keeps the
bytes read so far — store `(targetURL, body)` in Redis with a literal
`300*time.Second` TTL, and write the body.  `fetch` is the `http.Get`
outcome (`none` = transport error) and `readResult` the `io.ReadAll`
outcome (bytes read, whether an error occurred). -/
def handleMiss (originServer : String) (r : Request)
    (fetch : Option OriginResp) (readResult : String × Bool) :
    Response × Option RedisCmd :=
  match fetch with
  | none => (⟨502, [], "Error contacting origin server\n"⟩, none)
  | some resp =>
    let body := readResult.1
    (⟨resp.status, resp.headers, body⟩,
     some ⟨targetURL originServer r, body, 300⟩)

/-- The Redis-backed `handleRequest` (server `main.go`): on a successful
Redis lookup, write the cached bytes to the client (no `WriteHeader`, no
header copy — the response goes out with status 200 and no replayed
headers) and issue no `Set`; on any lookup error fall through to the miss
branch. -/
def handleRequest (originServer : String) (r : Request)
    (lookup : Except RedisErr String)
    (fetch : Option OriginResp) (readResult : String × Bool) :
    Response × Option RedisCmd :=
  match lookup with
  | .ok cached => (⟨200, [], cached⟩, none)
  | .error _ => handleMiss originServer r fetch readResult

/-- The README `ProxyServer`: in-memory cache, backend base URL. -/
structure ProxyServer where
  cache      : Cache
  backendURL : String
deriving Repr, DecidableEq

/-- The README `ProxyServer.ServeHTTP`: key `r.URL.String()`; on a cache hit
write only the cached bytes (status 200, no replayed headers); on a miss
forward to the backend, reply 502 on transport failure, 500 when reading the
body fails (and cache nothing), otherwise `cache.Set(cacheKey, body)`, copy
the origin headers, write the origin status and the body.  Returns the
response together with the cache state after the call. -/
def ServeHTTP (p : ProxyServer) (r : Request) (now : Nat)
    (fetch : Option OriginResp) (readResult : String × Bool) :
    Response × Cache :=
  let cacheKey := r.urlString
  match p.cache.Get cacheKey now with
  | (some response, c) => (⟨200, [], response⟩, c)
  | (none, c) =>
    match fetch with
    | none => (⟨502, [], "Error forwarding request\n"⟩, c)
    | some resp =>
      if readResult.2 then
        (⟨500, [], "Error reading response\n"⟩, c)
      else
        let body := readResult.1
        (⟨resp.status, resp.headers, body⟩, c.Set cacheKey body now)

/-! ## Lemmas about the LRU primitives -/

theorem lruRemove_eq_self {l : List (String × CacheEntry)} {k : String}
    (h : k ∉ l.map Prod.fst) : lruRemove l k = l := by
  apply List.filter_eq_self.mpr
  intro p hp
  simp only [decide_eq_true_eq]
  intro hk
  exact h (hk ▸ List.mem_map_of_mem Prod.fst hp)

theorem not_mem_keys_lruRemove (l : List (String × CacheEntry)) (k : String) :
    k ∉ (lruRemove l k).map Prod.fst := by
  intro hk
  rcases List.mem_map.mp hk with ⟨p, hp, hfst⟩
  have hne := (List.mem_filter.mp hp).2
  simp only [decide_eq_true_eq] at hne
  exact hne hfst

theorem lruRemove_cons_self (l : List (String × CacheEntry)) (k : String)
    (e : CacheEntry) (h : k ∉ l.map Prod.fst) :
    lruRemove ((k, e) :: l) k = l := by
  simp only [lruRemove, List.filter_cons]
  rw [if_neg (by simp)]
  exact lruRemove_eq_self h

theorem length_lruRemove_le (l : List (String × CacheEntry)) (k : String) :
    (lruRemove l k).length ≤ l.length :=
  List.length_filter_le _ l

theorem length_lruAdd_le {cap : Nat} {l : List (String × CacheEntry)}
    (k : String) (e : CacheEntry) (h : l.length ≤ cap) :
    ((lruAdd cap l k e).1).length ≤ cap := by
  have hrem := length_lruRemove_le l k
  simp only [lruAdd]
  split
  · next hc =>
    rw [List.length_dropLast]
    simp only [List.length_cons] at hc ⊢
    omega
  · next hc =>
    simp only [List.length_cons] at hc ⊢
    omega

theorem Set_size (c : Cache) (k v : String) (t : Nat) :
    (c.Set k v t).size = c.size := rfl

theorem Set_ttl (c : Cache) (k v : String) (t : Nat) :
    (c.Set k v t).ttl = c.ttl := rfl

theorem length_Set_le (c : Cache) (k v : String) (t : Nat)
    (h : c.entries.length ≤ c.size) :
    (c.Set k v t).entries.length ≤ c.size :=
  length_lruAdd_le k _ h

/-- After a `Set`, provided the capacity is positive, the freshly written
entry sits at the most-recent position and its key occurs nowhere else. -/
theorem Set_entries_shape (c : Cache) (k v : String) (t : Nat)
    (hcap : 1 ≤ c.size) :
    ∃ rest, (c.Set k v t).entries = (k, ⟨v, t + c.ttl⟩) :: rest ∧
      k ∉ rest.map Prod.fst := by
  simp only [Cache.Set, lruAdd]
  split
  · next hc =>
    simp only [List.length_cons] at hc
    match hrem : lruRemove c.entries k with
    | [] =>
      rw [hrem] at hc
      simp at hc
      omega
    | q :: rem =>
      refine ⟨(q :: rem).dropLast, ?_, ?_⟩
      · simp only [List.dropLast_cons₂]
      · intro hk
        have hsub : ((q :: rem).dropLast.map Prod.fst) ⊆
            ((q :: rem).map Prod.fst) :=
          ((List.dropLast_sublist _).map Prod.fst).subset
        exact (hrem ▸ not_mem_keys_lruRemove c.entries k) (hsub hk)
  · exact ⟨lruRemove c.entries k, rfl, not_mem_keys_lruRemove _ _⟩

/-- `Set` on a cache whose most-recent entry already holds the key replaces
that entry in place (no eviction, no length change). -/
theorem Set_entries_of_head (c : Cache) (k v : String) (e : CacheEntry)
    (rest : List (String × CacheEntry)) (t : Nat)
    (hent : c.entries = (k, e) :: rest) (hrest : k ∉ rest.map Prod.fst)
    (hlen : c.entries.length ≤ c.size) :
    (c.Set k v t).entries = (k, ⟨v, t + c.ttl⟩) :: rest := by
  simp only [Cache.Set, lruAdd, hent, lruRemove_cons_self rest k e hrest]
  rw [if_neg]
  rw [hent] at hlen
  simp only [List.length_cons] at hlen ⊢
  omega

/-- Evaluation of `Get` when the key is held by the most-recent entry and
occurs nowhere else: promotion keeps the list unchanged, and the entry is
returned or removed according to the strict `time.Now().After` test. -/
theorem Get_of_head (c : Cache) (k : String) (e : CacheEntry)
    (rest : List (String × CacheEntry)) (now : Nat)
    (hent : c.entries = (k, e) :: rest) (hrest : k ∉ rest.map Prod.fst) :
    c.Get k now = if e.Expires < now
      then (none, { c with entries := rest })
      else (some e.Response, { c with entries := (k, e) :: rest }) := by
  simp only [Cache.Get, lruGet, hent]
  rw [List.find?_cons_of_pos _ (by simp)]
  simp only [lruRemove_cons_self rest k e hrest]

/-- A `Get` that misses leaves the store without any entry for the key. -/
theorem get_none_not_mem (c : Cache) (k : String) (now : Nat)
    (h : (c.Get k now).1 = none) :
    k ∉ ((c.Get k now).2).keys := by
  simp only [Cache.Get, lruGet] at h ⊢
  match hfind : c.entries.find? (fun p => decide (p.1 = k)) with
  | none =>
    simp only [hfind] at h ⊢
    intro hk
    rcases List.mem_map.mp hk with ⟨p, hp, hfst⟩
    have := List.find?_eq_none.mp hfind p hp
    simp [hfst] at this
  | some p =>
    simp only [hfind] at h ⊢
    split at h
    · next hexp =>
      simp only [hexp, if_true, Cache.keys]
      exact not_mem_keys_lruRemove _ _
    · simp at h

/-- Any sequence of `Set` calls keeps the live entry count within the
capacity and never changes the capacity. -/
theorem setAll_length_le (ops : List (String × String × Nat)) (c : Cache)
    (h : c.entries.length ≤ c.size) :
    (setAll c ops).entries.length ≤ c.size ∧ (setAll c ops).size = c.size := by
  induction ops generalizing c with
  | nil => exact ⟨h, rfl⟩
  | cons op ops ih =>
    simp only [setAll, List.foldl_cons] at ih ⊢
    exact ih (c.Set op.1 op.2.1 op.2.2) (length_Set_le c op.1 op.2.1 op.2.2 h)

/-- Inserting fresh, pairwise-distinct keys while there is room for all of
them piles the new entries up at the most-recent end, in reverse insertion
order, with no eviction. -/
theorem setSeq_entries (ps : List (String × String)) (c : Cache) (t : Nat)
    (hnodup : (ps.map Prod.fst).Nodup)
    (hdisj : ∀ k ∈ ps.map Prod.fst, k ∉ c.entries.map Prod.fst)
    (hlen : c.entries.length + ps.length ≤ c.size) :
    (setSeq c ps t).entries
      = (ps.map (fun p => (p.1, CacheEntry.mk p.2 (t + c.ttl)))).reverse
          ++ c.entries
    ∧ (setSeq c ps t).size = c.size ∧ (setSeq c ps t).ttl = c.ttl := by
  induction ps generalizing c with
  | nil => simp [setSeq]
  | cons p ps ih =>
    have hp1 : p.1 ∉ c.entries.map Prod.fst := hdisj p.1 (by simp)
    have hset : (c.Set p.1 p.2 t).entries
        = (p.1, CacheEntry.mk p.2 (t + c.ttl)) :: c.entries := by
      simp only [Cache.Set, lruAdd, lruRemove_eq_self hp1]
      rw [if_neg]
      simp only [List.length_cons, List.length_cons] at hlen ⊢
      omega
    have hnodup' : (ps.map Prod.fst).Nodup := (List.nodup_cons.mp (by simpa using hnodup)).2
    have hhd : p.1 ∉ ps.map Prod.fst := (List.nodup_cons.mp (by simpa using hnodup)).1
    have hdisj' : ∀ k ∈ ps.map Prod.fst,
        k ∉ (c.Set p.1 p.2 t).entries.map Prod.fst := by
      intro k hk
      rw [hset]
      simp only [List.map_cons, List.mem_cons]
      rintro (h1 | h2)
      · exact hhd (h1 ▸ hk)
      · exact hdisj k (by simp [hk]) h2
    have hlen' : (c.Set p.1 p.2 t).entries.length + ps.length
        ≤ (c.Set p.1 p.2 t).size := by
      rw [hset, Set_size]
      simp only [List.length_cons] at hlen ⊢
      omega
    obtain ⟨h1, h2, h3⟩ := ih (c.Set p.1 p.2 t) hnodup' hdisj' hlen'
    refine ⟨?_, h2, h3⟩
    have hseq : setSeq c (p :: ps) t = setSeq (c.Set p.1 p.2 t) ps t := by
      simp [setSeq]
    rw [hseq, h1, hset, Set_ttl]
    simp [List.reverse_cons, List.append_assoc]

/-! ## Claim theorems -/

/-- C2, counterexample: the claim says a `Get` at any time `≥ expiresAt`
returns `found = false`, but `Cache.Get` uses the strict
`time.Now().After(entry.Expires)` test: with TTL 5 an entry written at time 0
expires at 5, yet a `Get` at exactly time 5 still returns the entry. -/
theorem C2_boundary_counterexample :
    (NewCache 2 5).map (fun c => ((c.Set "k" "v" 0).Get "k" 5).1)
      = some (some "v") := by decide

/-- C2 (amended): an entry written at `t0` (so `expiresAt = t0 + ttl`) is
returned with `found = true` by any `Get` at time `≤ expiresAt` — including
exactly `expiresAt`, since the code's `After` test is strict — and any `Get`
at a time strictly past `expiresAt` returns `found = false` and removes the
expired entry from the store as a side effect. -/
theorem C2_ttl_expiry (c : Cache) (k v : String) (t0 tg : Nat)
    (hcap : 1 ≤ c.size) :
    (tg ≤ t0 + c.ttl → ((c.Set k v t0).Get k tg).1 = some v) ∧
    (t0 + c.ttl < tg → ((c.Set k v t0).Get k tg).1 = none ∧
      k ∉ (((c.Set k v t0).Get k tg).2).keys) := by
  obtain ⟨rest, hent, hrest⟩ := Set_entries_shape c k v t0 hcap
  have hget := Get_of_head (c.Set k v t0) k ⟨v, t0 + c.ttl⟩ rest tg hent hrest
  constructor
  · intro hle
    rw [hget, if_neg (by show ¬ t0 + c.ttl < tg; omega)]
  · intro hlt
    rw [hget, if_pos (by show t0 + c.ttl < tg; omega)]
    exact ⟨rfl, hrest⟩

/-- C2, witness for the amended theorem. -/
theorem C2_ttl_expiry_witness :
    1 ≤ (Cache.mk 2 5 []).size ∧
    ((3 ≤ 0 + (Cache.mk 2 5 []).ttl →
        (((Cache.mk 2 5 []).Set "k" "v" 0).Get "k" 3).1 = some "v") ∧
      (0 + (Cache.mk 2 5 []).ttl < 3 →
        (((Cache.mk 2 5 []).Set "k" "v" 0).Get "k" 3).1 = none ∧
        "k" ∉ ((((Cache.mk 2 5 []).Set "k" "v" 0).Get "k" 3).2).keys)) :=
  ⟨by decide, C2_ttl_expiry (Cache.mk 2 5 []) "k" "v" 0 3 (by decide)⟩

/-- C3: for every store successfully built by `NewCache` with capacity
`size`, after any finite sequence of `Set` operations the live entry count
is at most `size`. -/
theorem C3_capacity_invariant (size ttl : Nat) (c0 : Cache)
    (h : NewCache size ttl = some c0) (ops : List (String × String × Nat)) :
    (setAll c0 ops).count ≤ size := by
  have hc0 : c0 = Cache.mk size ttl [] := by
    simp only [NewCache] at h
    split at h
    · exact absurd h (by simp)
    · exact (Option.some.inj h).symm
  subst hc0
  have hres := setAll_length_le ops (Cache.mk size ttl []) (by simp)
  simpa [Cache.count] using hres.1

/-- C3, witness. -/
theorem C3_capacity_invariant_witness :
    NewCache 2 5 = some (Cache.mk 2 5 []) ∧
    (setAll (Cache.mk 2 5 []) [("a", "1", 0), ("b", "2", 0), ("c", "3", 0)]).count ≤ 2 :=
  ⟨by decide, C3_capacity_invariant 2 5 (Cache.mk 2 5 []) (by decide) _⟩

/-- C9: writing the same key twice leaves the live entry count unchanged,
leaves exactly one entry for that key — holding the second call's value —
and a subsequent non-expired `Get` returns the second value. -/
theorem C9_replace_same_key (c : Cache) (k v1 v2 : String) (t1 t2 tg : Nat)
    (hcap : 1 ≤ c.size) (hlen : c.entries.length ≤ c.size) :
    ((c.Set k v1 t1).Set k v2 t2).count = (c.Set k v1 t1).count ∧
    ((c.Set k v1 t1).Set k v2 t2).entries.filter (fun p => decide (p.1 = k))
      = [(k, CacheEntry.mk v2 (t2 + c.ttl))] ∧
    (tg ≤ t2 + c.ttl →
      (((c.Set k v1 t1).Set k v2 t2).Get k tg).1 = some v2) := by
  obtain ⟨rest, hent1, hrest⟩ := Set_entries_shape c k v1 t1 hcap
  have hlen1 : (c.Set k v1 t1).entries.length ≤ (c.Set k v1 t1).size := by
    rw [Set_size]
    exact length_Set_le c k v1 t1 hlen
  have hent2 : ((c.Set k v1 t1).Set k v2 t2).entries
      = (k, CacheEntry.mk v2 (t2 + c.ttl)) :: rest := by
    have h := Set_entries_of_head (c.Set k v1 t1) k v2 ⟨v1, t1 + c.ttl⟩ rest t2 hent1 hrest hlen1
    simpa [Set_ttl] using h
  refine ⟨?_, ?_, ?_⟩
  · simp [Cache.count, hent2, hent1]
  · rw [hent2]
    have hnil : rest.filter (fun p => decide (p.1 = k)) = [] := by
      apply List.filter_eq_nil_iff.mpr
      intro p hp
      simp only [decide_eq_true_eq]
      intro hk
      exact hrest (hk ▸ List.mem_map_of_mem Prod.fst hp)
    simp [List.filter_cons, hnil]
  · intro hle
    have hget := Get_of_head ((c.Set k v1 t1).Set k v2 t2) k
      ⟨v2, t2 + c.ttl⟩ rest tg hent2 hrest
    rw [hget, if_neg (by show ¬ t2 + c.ttl < tg; omega)]

/-- C9, witness. -/
theorem C9_replace_same_key_witness :
    1 ≤ (Cache.mk 2 5 []).size ∧ (Cache.mk 2 5 []).entries.length ≤ (Cache.mk 2 5 []).size ∧
    (((Cache.mk 2 5 []).Set "k" "v1" 0).Set "k" "v2" 1).count
      = ((Cache.mk 2 5 []).Set "k" "v1" 0).count ∧
    (((Cache.mk 2 5 []).Set "k" "v1" 0).Set "k" "v2" 1).entries.filter
        (fun p => decide (p.1 = "k")) = [("k", CacheEntry.mk "v2" (1 + (Cache.mk 2 5 []).ttl))] ∧
    (4 ≤ 1 + (Cache.mk 2 5 []).ttl →
      ((((Cache.mk 2 5 []).Set "k" "v1" 0).Set "k" "v2" 1).Get "k" 4).1 = some "v2") :=
  ⟨by decide, by decide,
    C9_replace_same_key (Cache.mk 2 5 []) "k" "v1" "v2" 0 1 4 (by decide) (by decide)⟩

/-- C4: with capacity `N = ps2.length + 2` and distinct keys
`k1, k2, …, kNew`, inserting `k1, k2, ps2`-keys in order (filling the
store), then performing a successful `Get k1` (which promotes `k1` to
most-recent), then inserting the fresh key `kNew`, evicts `k2` — the
least-recently-used key — while `k1` stays present. -/
theorem C4_lru_eviction (k1 k2 kNew v1 v2 vNew : String)
    (ps2 : List (String × String)) (ttl t0 tg t2 : Nat) (c0 : Cache)
    (hN : NewCache (ps2.length + 2) ttl = some c0)
    (hnodup : (k1 :: k2 :: ps2.map Prod.fst).Nodup)
    (hnew : kNew ∉ k1 :: k2 :: ps2.map Prod.fst)
    (hfresh : tg ≤ t0 + ttl) :
    ((setSeq c0 ((k1, v1) :: (k2, v2) :: ps2) t0).Get k1 tg).1 = some v1 ∧
    k2 ∉ ((((setSeq c0 ((k1, v1) :: (k2, v2) :: ps2) t0).Get k1 tg).2).Set
      kNew vNew t2).keys ∧
    k1 ∈ ((((setSeq c0 ((k1, v1) :: (k2, v2) :: ps2) t0).Get k1 tg).2).Set
      kNew vNew t2).keys := by
  have hc0 : c0 = Cache.mk (ps2.length + 2) ttl [] := by
    simp only [NewCache] at hN
    split at hN
    · exact absurd hN (by simp)
    · exact (Option.some.inj hN).symm
  subst hc0
  obtain ⟨hentries, hsize, httl⟩ :=
    setSeq_entries ((k1, v1) :: (k2, v2) :: ps2)
      (Cache.mk (ps2.length + 2) ttl []) t0
      (by simpa using hnodup) (by simp) (by simp)
  rcases List.nodup_cons.mp hnodup with ⟨hk1, hnodup'⟩
  rcases List.nodup_cons.mp hnodup' with ⟨hk2, _⟩
  simp only [List.mem_cons, not_or] at hk1 hnew
  obtain ⟨hk1k2, hk1ps⟩ := hk1
  obtain ⟨hnk1, hnk2, hnps⟩ := hnew
  set cF : Cache :=
    setSeq (Cache.mk (ps2.length + 2) ttl []) ((k1, v1) :: (k2, v2) :: ps2) t0
    with hcF
  set R : List (String × CacheEntry) :=
    (ps2.map (fun p => (p.1, CacheEntry.mk p.2 (t0 + ttl)))).reverse with hR
  have hRkeys : R.map Prod.fst = (ps2.map Prod.fst).reverse := by
    rw [hR, List.map_reverse, List.map_map]
    rfl
  have hRk1 : ∀ x ∈ R ++ [(k2, CacheEntry.mk v2 (t0 + ttl))], x.1 ≠ k1 := by
    intro x hx
    rcases List.mem_append.mp hx with hx | hx
    · rcases List.mem_map.mp (List.mem_reverse.mp hx) with ⟨q, hq, rfl⟩
      intro hxk
      exact hk1ps (hxk ▸ List.mem_map_of_mem Prod.fst hq)
    · rcases List.mem_singleton.mp hx with rfl
      exact fun h => hk1k2 h.symm
  have hentR : cF.entries
      = (R ++ [(k2, CacheEntry.mk v2 (t0 + ttl))])
          ++ [(k1, CacheEntry.mk v1 (t0 + ttl))] := by
    rw [hentries]
    simp [hR, List.reverse_cons, List.append_assoc]
  have hfind : cF.entries.find? (fun p => decide (p.1 = k1))
      = some (k1, CacheEntry.mk v1 (t0 + ttl)) := by
    rw [hentR, List.find?_append]
    have h1 : (R ++ [(k2, CacheEntry.mk v2 (t0 + ttl))]).find?
        (fun p => decide (p.1 = k1)) = none :=
      List.find?_eq_none.mpr (fun x hx => by simpa using hRk1 x hx)
    rw [h1]
    simp
  have hrem : lruRemove cF.entries k1
      = R ++ [(k2, CacheEntry.mk v2 (t0 + ttl))] := by
    rw [hentR]
    simp only [lruRemove, List.filter_append]
    rw [List.filter_eq_self.mpr (fun x hx => by
      simpa using hRk1 x (List.mem_append_left _ hx))]
    have h2 : k2 ≠ k1 := fun h => hk1k2 h.symm
    simp [h2]
  set cG : Cache :=
    { cF with entries := (k1, CacheEntry.mk v1 (t0 + ttl))
        :: (R ++ [(k2, CacheEntry.mk v2 (t0 + ttl))]) } with hcG
  have hGet : cF.Get k1 tg = (some v1, cG) := by
    simp only [Cache.Get, lruGet, hfind, hrem]
    rw [if_neg (by show ¬ t0 + ttl < tg; omega)]
  have httlG : cG.ttl = ttl := by
    rw [hcG]
    show cF.ttl = ttl
    rw [httl]
  have hknew : kNew ∉ cG.entries.map Prod.fst := by
    rw [hcG]
    simp only [List.map_cons, List.map_append, hRkeys, List.mem_cons,
      List.mem_append, List.mem_reverse, List.map_cons, List.mem_singleton,
      List.map_nil]
    push_neg
    refine ⟨hnk1, fun h => hnps h, ?_⟩
    simpa using hnk2
  have hsizeG : cG.size = ps2.length + 2 := by
    rw [hcG]
    show cF.size = ps2.length + 2
    rw [hsize]
  have hlenG : cG.entries.length = ps2.length + 2 := by
    rw [hcG]
    simp [hR]
  have hSet : (cG.Set kNew vNew t2).entries
      = (kNew, CacheEntry.mk vNew (t2 + ttl))
          :: (k1, CacheEntry.mk v1 (t0 + ttl)) :: R := by
    have hcFttl : cF.ttl = ttl := httl
    simp only [Cache.Set, lruAdd, lruRemove_eq_self hknew]
    rw [if_pos (by
      show cG.size < ((kNew, (⟨vNew, t2 + cG.ttl⟩ : CacheEntry)) :: cG.entries).length
      rw [hsizeG, List.length_cons, hlenG]
      omega)]
    show ((kNew, (⟨vNew, t2 + cF.ttl⟩ : CacheEntry))
        :: (k1, CacheEntry.mk v1 (t0 + ttl))
        :: (R ++ [(k2, CacheEntry.mk v2 (t0 + ttl))])).dropLast
      = (kNew, CacheEntry.mk vNew (t2 + ttl))
          :: (k1, CacheEntry.mk v1 (t0 + ttl)) :: R
    rw [hcFttl]
    rw [show (kNew, CacheEntry.mk vNew (t2 + ttl))
          :: (k1, CacheEntry.mk v1 (t0 + ttl))
          :: (R ++ [(k2, CacheEntry.mk v2 (t0 + ttl))])
        = ((kNew, CacheEntry.mk vNew (t2 + ttl))
            :: (k1, CacheEntry.mk v1 (t0 + ttl)) :: R)
          ++ [(k2, CacheEntry.mk v2 (t0 + ttl))] from by simp]
    exact List.dropLast_concat
  have hkeys : (cG.Set kNew vNew t2).keys
      = kNew :: k1 :: (ps2.map Prod.fst).reverse := by
    simp [Cache.keys, hSet, hRkeys]
  refine ⟨?_, ?_, ?_⟩
  · rw [hGet]
  · rw [hGet]
    show k2 ∉ (cG.Set kNew vNew t2).keys
    rw [hkeys]
    simp only [List.mem_cons, List.mem_reverse, not_or]
    exact ⟨fun h => hnk2 h.symm, fun h => hk1k2 h.symm, hk2⟩
  · rw [hGet]
    show k1 ∈ (cG.Set kNew vNew t2).keys
    rw [hkeys]
    simp

/-- C4, witness: the spec §8 scenario at capacity 2 — set a, set b, hit a,
set c; b is evicted and a stays. -/
theorem C4_lru_eviction_witness :
    NewCache (([] : List (String × String)).length + 2) 5
        = some (Cache.mk 2 5 []) ∧
    ("a" :: "b" :: ([] : List (String × String)).map Prod.fst).Nodup ∧
    "c" ∉ "a" :: "b" :: ([] : List (String × String)).map Prod.fst ∧
    0 ≤ 0 + 5 ∧
    (((setSeq (Cache.mk 2 5 []) [("a", "1"), ("b", "2")] 0).Get "a" 0).1
        = some "1" ∧
      "b" ∉ ((((setSeq (Cache.mk 2 5 []) [("a", "1"), ("b", "2")] 0).Get
        "a" 0).2).Set "c" "3" 1).keys ∧
      "a" ∈ ((((setSeq (Cache.mk 2 5 []) [("a", "1"), ("b", "2")] 0).Get
        "a" 0).2).Set "c" "3" 1).keys) :=
  ⟨by decide, by decide, by decide, by decide,
    C4_lru_eviction "a" "b" "c" "1" "2" "3" [] 5 0 0 1 (Cache.mk 2 5 [])
      (by decide) (by decide) (by decide) (by decide)⟩

/-- C1: the cache entry keeps only the body bytes, and the hit path only
writes them back — no `WriteHeader`, no header copy.  For an origin response
`(301, Location: /new, "moved")` the miss path serves exactly that response
(and stores the body), but a later hit on the stored entry serves
`(200, no headers, "moved")`: the hit response differs from the stored
origin response in status and headers, so hit/miss transparency fails.
The spec's §6/§8 require identical replay and its §9 flags this reference
behavior as the defect to correct, so the code, not the claim, is wrong. -/
theorem C1_hit_path_loses_status_and_headers :
    handleRequest "http://o" ⟨"/p", ""⟩ (.error .nilKey)
        (some ⟨301, [("Location", "/new")], "moved"⟩) ("moved", false)
      = (⟨301, [("Location", "/new")], "moved"⟩,
          some ⟨"http://o/p", "moved", 300⟩) ∧
    (handleRequest "http://o" ⟨"/p", ""⟩ (.ok "moved") none ("", false)).1
      = ⟨200, [], "moved"⟩ ∧
    (handleRequest "http://o" ⟨"/p", ""⟩ (.ok "moved") none ("", false)).1
      ≠ ⟨301, [("Location", "/new")], "moved"⟩ := by
  refine ⟨by decide, rfl, by decide⟩

/-- C5, counterexample: the Redis-backed handler's cache key is
`originServer + r.URL.Path`, so two requests with the same path but
different query strings are assigned the same key, contradicting the claim
that requests differing in query string map to different keys. -/
theorem C5_query_ignored_counterexample :
    targetURL "http://o" ⟨"/a", "x=1"⟩ = targetURL "http://o" ⟨"/a", "x=2"⟩ ∧
    (Request.mk "/a" "x=1").query ≠ (Request.mk "/a" "x=2").query :=
  ⟨rfl, by decide⟩

/-- C5 (amended): the Redis-backed handler's cache key is a function of
exactly the request's path: two requests get the same key if and only if
their paths are equal — the query string plays no role in the key. -/
theorem C5_key_is_path_function (originServer : String) (r1 r2 : Request) :
    targetURL originServer r1 = targetURL originServer r2 ↔ r1.path = r2.path := by
  constructor
  · intro h
    have hd := congrArg String.data h
    simp only [targetURL, String.data_append] at hd
    exact String.ext (List.append_cancel_left hd)
  · intro h
    simp [targetURL, h]

/-- C6: when the origin fetch fails with a transport error, the Redis-backed
handler replies 502 (gateway failure) with `http.Error`'s diagnostic body
and issues no cache `Set`: the cache state is unchanged by the failed
request. -/
theorem C6_transport_error_no_cache (originServer : String) (r : Request)
    (e : RedisErr) (readResult : String × Bool) :
    handleRequest originServer r (.error e) none readResult
      = (⟨502, [], "Error contacting origin server\n"⟩, none) := rfl

/-- C7: every cache-lookup error — the missing-key sentinel `redis.Nil` as
well as any other backend failure — is treated as a miss: the handler runs
the miss branch (forwarding the request to the origin) and behaves
identically to a plain missing key, instead of failing the request. -/
theorem C7_lookup_error_is_miss (originServer : String) (r : Request)
    (e : RedisErr) (fetch : Option OriginResp) (readResult : String × Bool) :
    handleRequest originServer r (.error e) fetch readResult
        = handleMiss originServer r fetch readResult ∧
    handleRequest originServer r (.error e) fetch readResult
        = handleRequest originServer r (.error .nilKey) fetch readResult :=
  ⟨rfl, rfl⟩

/-- C8, counterexample: the Redis-backed handler ignores the body-read error
(`body, _ := io.ReadAll(resp.Body)`): when the read fails with only partial
bytes after a 200 origin response, the client receives status 200 — not
500 — with the partial body, and the partial body is stored in the cache. -/
theorem C8_read_error_ignored_counterexample :
    handleRequest "http://o" ⟨"/p", ""⟩ (.error .nilKey)
        (some ⟨200, [("A", "b")], "fullbody"⟩) ("part", true)
      = (⟨200, [("A", "b")], "part"⟩, some ⟨"http://o/p", "part", 300⟩) := by
  decide

/-- C8 (amended): in the README `ProxyServer.ServeHTTP` a failure to read
the origin body on a miss yields status 500 with `http.Error`'s diagnostic
and nothing is cached: the store keeps the lookup-updated state, which holds
no entry for the request's key.  (The Redis-backed `handleRequest` instead
ignores the read error — see the counterexample.) -/
theorem C8_readerror_500_not_cached (p : ProxyServer) (r : Request)
    (now : Nat) (resp : OriginResp) (bytes : String)
    (hmiss : (p.cache.Get r.urlString now).1 = none) :
    ServeHTTP p r now (some resp) (bytes, true)
        = (⟨500, [], "Error reading response\n"⟩,
            (p.cache.Get r.urlString now).2) ∧
    r.urlString ∉ ((ServeHTTP p r now (some resp) (bytes, true)).2).keys := by
  have hnot := get_none_not_mem p.cache r.urlString now hmiss
  rcases hG : p.cache.Get r.urlString now with ⟨res, c2⟩
  rw [hG] at hmiss hnot
  obtain rfl : res = none := hmiss
  constructor
  · simp [ServeHTTP, hG]
  · simp only [ServeHTTP, hG]
    exact hnot

/-- C8, witness for the amended theorem. -/
theorem C8_readerror_500_not_cached_witness :
    (((ProxyServer.mk (Cache.mk 2 5 []) "http://o").cache.Get
        (Request.mk "/p" "").urlString 0).1 = none) ∧
    (ServeHTTP (ProxyServer.mk (Cache.mk 2 5 []) "http://o") ⟨"/p", ""⟩ 0
          (some ⟨200, [], "full"⟩) ("part", true)
        = (⟨500, [], "Error reading response\n"⟩,
            ((ProxyServer.mk (Cache.mk 2 5 []) "http://o").cache.Get
              (Request.mk "/p" "").urlString 0).2) ∧
      (Request.mk "/p" "").urlString ∉
        ((ServeHTTP (ProxyServer.mk (Cache.mk 2 5 []) "http://o") ⟨"/p", ""⟩ 0
          (some ⟨200, [], "full"⟩) ("part", true)).2).keys) :=
  ⟨by decide,
    C8_readerror_500_not_cached (ProxyServer.mk (Cache.mk 2 5 []) "http://o")
      ⟨"/p", ""⟩ 0 ⟨200, [], "full"⟩ "part" (by decide)⟩

/-- C10: on a miss (any lookup error) with a successful origin fetch whose
body is fully read, the Redis-backed handler stores under the derived key
exactly the origin body bytes — the status code and headers are not part of
the stored value — with the hardwired TTL of 300 seconds, whatever origin
base URL the proxy was configured with. -/
theorem C10_stores_body_with_fixed_ttl (originServer : String) (r : Request)
    (e : RedisErr) (resp : OriginResp) :
    (handleRequest originServer r (.error e) (some resp) (resp.body, false)).2
      = some ⟨targetURL originServer r, resp.body, 300⟩ := rfl

end CacheProxy
